import Mathlib

/-!
Shallow embedding of the message-matrix composer of `src/main.py`
(class `Vestaboard` plus the module-level `COLOR_CODES` table).

Modelling conventions:
* Python lists become Lean `List`s; display codes are `Int`.
* `CHARACTER_CODES` is loaded from the external asset `character_codes.json`,
  so the composer is parameterised by a table `tbl : Char → Option Int`;
  `dict.get(k, d)` becomes `(tbl k).getD d`.
* The `None` padding sentinel of justified rows becomes `Option Int` cells
  (`none` = transparent marker, `some c` = a code to write).
* The only fallible step is the overlay loop `message_matrix[i][j] = code`,
  which raises `IndexError` in Python when `j` is out of range; the embedding
  returns `Option`, with `none` for that error.
* the Python float expression `int(start + (pos/131) * (end - start))` in
  `create_gradient_background` is embedded as the exact integer division
  `(131*start + pos*(end-start)) / 131`: the color codes lie in `[63, 70]`,
  so the exact value lies in `[63, 70]` and is either an exact integer
  (`pos ∈ {0, 131}` or `end = start`, cases the float evaluation computes
  exactly) or at distance at least `1/131` from every integer, far beyond the
  accumulated double rounding error; truncation toward zero of a positive
  value coincides with this division.
-/

namespace Vestaboard

/-- The module-level `COLOR_CODES` dict of `src/main.py` (lines 28–37),
as a lookup function. -/
def COLOR_CODES (name : String) : Option Int :=
  if name = "red" then some 63
  else if name = "orange" then some 64
  else if name = "yellow" then some 65
  else if name = "green" then some 66
  else if name = "blue" then some 67
  else if name = "violet" then some 68
  else if name = "white" then some 69
  else if name = "black" then some 70
  else none

/-- ASCII whitespace recognised by the Python `str.split()` with no argument. -/
def isSpaceChar (c : Char) : Bool :=
  c == ' ' || c == '\t' || c == '\n' || c == '\r' || c == '\x0B' || c == '\x0C'

/-- the Python `str.lower()` restricted to the character level (the color names
it is compared against are all ASCII). -/
def lowerString (s : String) : String :=
  String.mk (s.data.map Char.toLower)

/-- Helper for `splitWords`: walks the characters accumulating the current
word, emitting it when whitespace or the end of the string is reached. -/
def splitWordsAux : List Char → List Char → List (List Char)
  | [], cur => if cur.isEmpty then [] else [cur]
  | c :: rest, cur =>
    if isSpaceChar c then
      if cur.isEmpty then splitWordsAux rest [] else cur :: splitWordsAux rest []
    else splitWordsAux rest (cur ++ [c])

/-- the Python `message.split()` (line 113): split on whitespace runs,
discarding empty pieces. -/
def splitWords (cs : List Char) : List (List Char) :=
  splitWordsAux cs []

/-- `Vestaboard.convert_text_to_codes` (lines 75–80): a space maps to `0`,
any other character is uppercased and looked up with default `0`. -/
def convert_text_to_codes (tbl : Char → Option Int) (text : List Char) : List Int :=
  text.map (fun ch => if ch ≠ ' ' then (tbl ch.toUpper).getD 0 else 0)

/-- The color lookup of `create_gradient_background` (lines 86–87):
`COLOR_CODES.get(color.lower(), 70)`, defaulting to black. -/
def gradient_color_code (name : String) : Int :=
  (COLOR_CODES (lowerString name)).getD 70

/-- `Vestaboard.create_gradient_background` (lines 82–99). See the header
comment for why the Python float interpolation is embedded as this exact
integer division. -/
def create_gradient_background (start_color end_color : String) : List (List Int) :=
  let start_code := gradient_color_code start_color
  let end_code := gradient_color_code end_color
  (List.range 6).map (fun row =>
    (List.range 22).map (fun col =>
      (131 * start_code + ((row * 22 + col : Nat) : Int) * (end_code - start_code)) / 131))

/-- The solid-fill expression of `create_message_matrix` (line 109):
`COLOR_CODES.get(color.lower(), 0) if color else 0`. Note the default here is
`0`, and that the Python truthiness test makes the empty string act as unset. -/
def solid_fill_code (color : Option String) : Int :=
  match color with
  | none => 0
  | some c => if c = "" then 0 else (COLOR_CODES (lowerString c)).getD 0

/-- The background selection of `create_message_matrix` (lines 106–110):
a gradient when a pair is supplied, otherwise a solid fill. -/
def background_matrix (color : Option String) (gradient : Option (String × String)) :
    List (List Int) :=
  match gradient with
  | some (s, e) => create_gradient_background s e
  | none => List.replicate 6 (List.replicate 22 (solid_fill_code color))

/-- The three justification modes accepted by the CLI (`--justify`). -/
inductive Justify
  | left
  | right
  | center
deriving DecidableEq

/-- The word-wrapping loop of `create_message_matrix` (lines 114–123):
state is the accumulated closed lines and the running current line. -/
def wrapLoop : List (List Char) → List (List Char) → List Char →
    List (List Char) × List Char
  | [], ls, current => (ls, current)
  | w :: ws, ls, current =>
    if current.length + w.length + (if current.isEmpty then 0 else 1) ≤ 22 then
      wrapLoop ws ls (current ++ (if current.isEmpty then [] else [' ']) ++ w)
    else
      wrapLoop ws (ls ++ [current]) w

/-- The full wrap (lines 114–125): run the loop from the empty state and
append the final non-empty current line. -/
def wrapWords (words : List (List Char)) : List (List Char) :=
  let p := wrapLoop words [] []
  if p.2.isEmpty then p.1 else p.1 ++ [p.2]

/-- The per-line justification of `create_message_matrix` (lines 131–137):
pad the codes to 22 cells with the `None` sentinel. the Python `[None] * k`
with negative `k` is empty, which `Nat` subtraction reproduces. -/
def justifyLine (j : Justify) (codes : List Int) : List (Option Int) :=
  match j with
  | .left => codes.map some ++ List.replicate (22 - codes.length) none
  | .right => List.replicate (22 - codes.length) none ++ codes.map some
  | .center =>
    let padding := (22 - codes.length) / 2
    List.replicate padding none ++ codes.map some ++
      List.replicate (22 - codes.length - padding) none

/-- Lines 128–138: keep at most six wrapped lines, encode each and justify. -/
def justified_lines (tbl : Char → Option Int) (justify : Justify)
    (lns : List (List Char)) : List (List (Option Int)) :=
  (lns.take 6).map (fun line => justifyLine justify (convert_text_to_codes tbl line))

/-- Lines 140–143: with center justification, pad the block of rows to six
with fully transparent rows, odd remainder at the bottom. -/
def vertical_center (justify : Justify) (justified : List (List (Option Int))) :
    List (List (Option Int)) :=
  match justify with
  | .center =>
    let top := (6 - justified.length) / 2
    List.replicate top (List.replicate 22 (none : Option Int)) ++ justified ++
      List.replicate (6 - justified.length - top) (List.replicate 22 none)
  | _ => justified

/-- the Python `xs[j] = v` on a list: `none` models the `IndexError` raised
when `j` is out of range. -/
def setAt : List Int → Nat → Int → Option (List Int)
  | [], _, _ => none
  | _ :: xs, 0, v => some (v :: xs)
  | x :: xs, Nat.succ n, v => (setAt xs n v).map (fun ys => x :: ys)

/-- The inner overlay loop of lines 147–150 on one row: write every
non-`None` cell at its column index, starting at column `j`. -/
def overlayRowAux (bg : List Int) (line : List (Option Int)) (j : Nat) :
    Option (List Int) :=
  match line with
  | [] => some bg
  | none :: rest => overlayRowAux bg rest (j + 1)
  | some c :: rest =>
    match setAt bg j c with
    | none => none
    | some bg2 => overlayRowAux bg2 rest (j + 1)

/-- The overlay of lines 145–150: start from a copy of the background and
write the justified rows onto it row by row. -/
def overlay : List (List Int) → List (List (Option Int)) → Option (List (List Int))
  | bg, [] => some bg
  | [], _ :: _ => none
  | b :: bs, l :: ls =>
    match overlayRowAux b l 0 with
    | none => none
    | some r =>
      match overlay bs ls with
      | none => none
      | some rs => some (r :: rs)

/-- `Vestaboard.create_message_matrix` (lines 101–152), assembled from the
blocks above in source order: background, wrap, justify, vertical centering,
overlay. -/
def create_message_matrix (tbl : Char → Option Int) (message : String)
    (color : Option String) (justify : Justify)
    (gradient : Option (String × String)) : Option (List (List Int)) :=
  overlay (background_matrix color gradient)
    (vertical_center justify
      (justified_lines tbl justify (wrapWords (splitWords message.toList))))

/-- Reading cell (r, c) of a grid, with `0` as the out-of-range default. -/
def cellAt (g : List (List Int)) (r c : Nat) : Int :=
  List.getD (List.getD g r []) c 0

/-- A concrete two-entry character table used for concrete evaluations:
the fragment of `character_codes.json` for the letters A and B. -/
def tblAB : Char → Option Int :=
  fun ch => if ch = 'A' then some 1 else if ch = 'B' then some 2 else none

/-- The text joined by single separating spaces, tail form: a separator
before every word. -/
def sepTail : List (List Char) → List Char
  | [] => []
  | w :: ws => ' ' :: (w ++ sepTail ws)

/-- The words joined by single separating spaces, as the wrap loop builds a
line: first word bare, every further word preceded by one space. -/
def sepJoin : List (List Char) → List Char
  | [] => []
  | w :: ws => w ++ sepTail ws

/-! Basic facts about the embedded operations. -/

theorem splitWordsAux_nil_of_space (cs : List Char)
    (h : ∀ c ∈ cs, isSpaceChar c = true) : splitWordsAux cs [] = [] := by
  induction cs with
  | nil => rfl
  | cons c rest ih =>
    have hc : isSpaceChar c = true := h c (by simp)
    simp only [splitWordsAux, hc, if_true, List.isEmpty_nil]
    exact ih (fun d hd => h d (by simp [hd]))

theorem splitWords_nil_of_space (cs : List Char)
    (h : ∀ c ∈ cs, isSpaceChar c = true) : splitWords cs = [] :=
  splitWordsAux_nil_of_space cs h

theorem splitWordsAux_of_no_space (cs : List Char) :
    ∀ cur, (∀ c ∈ cs, isSpaceChar c = false) →
      splitWordsAux cs cur = if (cur ++ cs).isEmpty then [] else [cur ++ cs] := by
  induction cs with
  | nil => intro cur _; simp [splitWordsAux]
  | cons c rest ih =>
    intro cur h
    have hc : isSpaceChar c = false := h c (by simp)
    simp only [splitWordsAux, hc, Bool.false_eq_true, if_false]
    rw [ih (cur ++ [c]) (fun d hd => h d (by simp [hd]))]
    have h1 : cur ++ [c] ++ rest = cur ++ c :: rest := by simp
    rw [h1]

theorem splitWords_single (cs : List Char) (hne : cs ≠ [])
    (h : ∀ c ∈ cs, isSpaceChar c = false) : splitWords cs = [cs] := by
  unfold splitWords
  rw [splitWordsAux_of_no_space cs [] h]
  cases cs with
  | nil => exact absurd rfl hne
  | cons c rest => rfl

theorem setAt_eq_none_iff (xs : List Int) : ∀ n v, setAt xs n v = none ↔ xs.length ≤ n := by
  induction xs with
  | nil => intro n v; simp [setAt]
  | cons x xs ih =>
    intro n v
    cases n with
    | zero => simp [setAt]
    | succ n =>
      show (setAt xs n v).map (fun ys => x :: ys) = none ↔ xs.length + 1 ≤ n + 1
      cases h : setAt xs n v with
      | none =>
        have := (ih n v).mp h
        constructor
        · intro _; omega
        · intro _; rfl
      | some ys =>
        have h2 : ¬ xs.length ≤ n := by
          intro hle
          rw [(ih n v).mpr hle] at h
          exact absurd h (by simp)
        constructor
        · intro hcon; exact Option.noConfusion hcon
        · intro hle; exact absurd (by omega : xs.length ≤ n) h2

theorem setAt_some_length (xs : List Int) :
    ∀ n v ys, setAt xs n v = some ys → ys.length = xs.length := by
  induction xs with
  | nil => intro n v ys h; simp [setAt] at h
  | cons x xs ih =>
    intro n v ys h
    cases n with
    | zero =>
      simp only [setAt, Option.some_inj] at h
      subst h; rfl
    | succ n =>
      have h3 : (setAt xs n v).map (fun ys => x :: ys) = some ys := h
      cases h2 : setAt xs n v with
      | none => rw [h2] at h3; simp at h3
      | some zs =>
        rw [h2] at h3
        have h4 : x :: zs = ys := Option.some_inj.mp h3
        subst h4
        simp [ih n v zs h2]

theorem overlayRowAux_length (line : List (Option Int)) :
    ∀ bg j r, overlayRowAux bg line j = some r → r.length = bg.length := by
  induction line with
  | nil =>
    intro bg j r h
    simp only [overlayRowAux, Option.some_inj] at h
    subst h; rfl
  | cons cell rest ih =>
    intro bg j r h
    cases cell with
    | none => exact ih bg (j + 1) r h
    | some c =>
      simp only [overlayRowAux] at h
      cases h2 : setAt bg j c with
      | none => rw [h2] at h; simp at h
      | some bg2 =>
        rw [h2] at h
        rw [ih bg2 (j + 1) r h, setAt_some_length bg j c bg2 h2]

theorem overlayRowAux_some_of_le (line : List (Option Int)) :
    ∀ bg j, j + line.length ≤ bg.length → ∃ r, overlayRowAux bg line j = some r := by
  induction line with
  | nil => intro bg j _; exact ⟨bg, rfl⟩
  | cons cell rest ih =>
    intro bg j hle
    simp only [List.length_cons] at hle
    cases cell with
    | none => exact ih bg (j + 1) (by omega)
    | some c =>
      have hj : ¬ bg.length ≤ j := by omega
      cases h2 : setAt bg j c with
      | none => exact absurd ((setAt_eq_none_iff bg j c).mp h2) hj
      | some bg2 =>
        have hlen := setAt_some_length bg j c bg2 h2
        obtain ⟨r, hr⟩ := ih bg2 (j + 1) (by omega)
        exact ⟨r, by simp [overlayRowAux, h2, hr]⟩

theorem overlayRowAux_none_of_gt (codes : List Int) :
    ∀ bg j, codes ≠ [] → bg.length < j + codes.length →
      overlayRowAux bg (codes.map some) j = none := by
  induction codes with
  | nil => intro bg j h _; exact absurd rfl h
  | cons c rest ih =>
    intro bg j _ hlt
    simp only [List.length_cons] at hlt
    simp only [List.map_cons, overlayRowAux]
    cases h2 : setAt bg j c with
    | none => rfl
    | some bg2 =>
      have hj : j < bg.length := by
        by_contra hcon
        have := (setAt_eq_none_iff bg j c).mpr (by omega)
        rw [this] at h2
        exact absurd h2 (by simp)
      cases rest with
      | nil =>
        have : setAt bg j c = none := (setAt_eq_none_iff bg j c).mpr (by simp at hlt; omega)
        rw [this] at h2
        exact absurd h2 (by simp)
      | cons d ds =>
        have hlen := setAt_some_length bg j c bg2 h2
        exact ih bg2 (j + 1) (by simp) (by omega)

theorem overlayRowAux_all_none (line : List (Option Int)) :
    ∀ bg j, (∀ x ∈ line, x = none) → overlayRowAux bg line j = some bg := by
  induction line with
  | nil => intro bg j _; rfl
  | cons cell rest ih =>
    intro bg j h
    have hc : cell = none := h cell (by simp)
    subst hc
    exact ih bg (j + 1) (fun x hx => h x (by simp [hx]))

theorem overlay_map_length (jls : List (List (Option Int))) :
    ∀ bg g, overlay bg jls = some g → g.map List.length = bg.map List.length := by
  induction jls with
  | nil =>
    intro bg g h
    simp only [overlay, Option.some_inj] at h
    subst h; rfl
  | cons l ls ih =>
    intro bg g h
    cases bg with
    | nil => simp [overlay] at h
    | cons b bs =>
      simp only [overlay] at h
      cases h1 : overlayRowAux b l 0 with
      | none => rw [h1] at h; simp at h
      | some r =>
        rw [h1] at h
        cases h2 : overlay bs ls with
        | none => rw [h2] at h; simp at h
        | some rs =>
          rw [h2] at h
          have h3 : r :: rs = g := Option.some_inj.mp h
          subst h3
          simp [overlayRowAux_length l b 0 r h1, ih bs rs h2]

theorem overlay_some_of_fits (jls : List (List (Option Int))) :
    ∀ bg, jls.length ≤ bg.length → (∀ l ∈ jls, l.length ≤ 22) →
      (∀ b ∈ bg, b.length = 22) → ∃ g, overlay bg jls = some g := by
  induction jls with
  | nil => intro bg _ _ _; exact ⟨bg, by simp [overlay]⟩
  | cons l ls ih =>
    intro bg hle hl hb
    cases bg with
    | nil => simp at hle
    | cons b bs =>
      have hrow : 0 + l.length ≤ b.length := by
        rw [hb b (by simp)]
        simpa using hl l (by simp)
      obtain ⟨r, hr⟩ := overlayRowAux_some_of_le l b 0 hrow
      obtain ⟨rs, hrs⟩ := ih bs (by simpa using hle)
        (fun x hx => hl x (by simp [hx])) (fun x hx => hb x (by simp [hx]))
      exact ⟨r :: rs, by simp [overlay, hr, hrs]⟩

theorem overlay_all_none (rows : List (List (Option Int))) :
    ∀ bg, rows.length ≤ bg.length → (∀ l ∈ rows, ∀ x ∈ l, x = none) →
      overlay bg rows = some bg := by
  induction rows with
  | nil => intro bg _ _; simp [overlay]
  | cons l ls ih =>
    intro bg hle h
    cases bg with
    | nil => simp at hle
    | cons b bs =>
      have h1 : overlayRowAux b l 0 = some b :=
        overlayRowAux_all_none l b 0 (h l (by simp))
      have h2 : overlay bs ls = some bs :=
        ih bs (by simpa using hle) (fun x hx => h x (by simp [hx]))
      simp [overlay, h1, h2]

theorem background_matrix_length (color : Option String)
    (gradient : Option (String × String)) : (background_matrix color gradient).length = 6 := by
  cases gradient with
  | none => simp [background_matrix]
  | some p =>
    obtain ⟨s, e⟩ := p
    simp [background_matrix, create_gradient_background]

theorem background_matrix_rows (color : Option String)
    (gradient : Option (String × String)) :
    ∀ b ∈ background_matrix color gradient, b.length = 22 := by
  cases gradient with
  | none =>
    intro b hb
    rw [List.eq_of_mem_replicate hb]
    simp
  | some p =>
    obtain ⟨s, e⟩ := p
    intro b hb
    simp only [background_matrix, create_gradient_background, List.mem_map] at hb
    obtain ⟨row, _, hrow⟩ := hb
    rw [← hrow]
    simp

theorem create_gradient_background_cell (s e : String) (r c : Nat)
    (hr : r < 6) (hc : c < 22) :
    cellAt (create_gradient_background s e) r c =
      (131 * gradient_color_code s +
        ((r * 22 + c : Nat) : Int) * (gradient_color_code e - gradient_color_code s)) / 131 := by
  unfold cellAt create_gradient_background
  have hr6 : r < ((List.range 6).map (fun row =>
      (List.range 22).map (fun col =>
        (131 * gradient_color_code s +
          ((row * 22 + col : Nat) : Int) * (gradient_color_code e - gradient_color_code s)) /
          131))).length := by simpa using hr
  rw [List.getD_eq_getElem _ _ hr6]
  simp only [List.getElem_map, List.getElem_range]
  have hc22 : c < ((List.range 22).map (fun col =>
      (131 * gradient_color_code s +
        ((r * 22 + col : Nat) : Int) * (gradient_color_code e - gradient_color_code s)) /
        131)).length := by simpa using hc
  rw [List.getD_eq_getElem _ _ hc22]
  simp only [List.getElem_map, List.getElem_range]

theorem gradient_color_code_bounds (name : String) :
    63 ≤ gradient_color_code name ∧ gradient_color_code name ≤ 70 := by
  unfold gradient_color_code COLOR_CODES
  split_ifs <;> simp

theorem justifyLine_length (j : Justify) (codes : List Int) (h : codes.length ≤ 22) :
    (justifyLine j codes).length = 22 := by
  have hdiv : (22 - codes.length) / 2 ≤ 22 - codes.length := Nat.div_le_self _ _
  cases j <;> simp [justifyLine] <;> omega

theorem wrapLoop_full_fit (ws : List (List Char)) :
    ∀ current ls, current ≠ [] → current.length + (sepTail ws).length ≤ 22 →
      wrapLoop ws ls current = (ls, current ++ sepTail ws) := by
  induction ws with
  | nil =>
    intro current ls _ _
    simp [wrapLoop, sepTail]
  | cons w ws ih =>
    intro current ls hne hlen
    have hemp : current.isEmpty = false := by
      cases current with
      | nil => exact absurd rfl hne
      | cons a l => rfl
    have hlen2 : current.length + (sepTail (w :: ws)).length ≤ 22 := hlen
    simp only [sepTail, List.length_cons, List.length_append] at hlen2
    have hfits : current.length + w.length + 1 ≤ 22 := by omega
    simp only [wrapLoop, hemp, Bool.false_eq_true, if_false, if_pos hfits]
    rw [ih (current ++ [' '] ++ w) ls (by simp)
      (by simp only [List.length_append, List.length_cons, List.length_nil]; omega)]
    simp [sepTail]

theorem wrapLoop_append (xs : List (List Char)) :
    ∀ ys ls current, wrapLoop (xs ++ ys) ls current =
      wrapLoop ys (wrapLoop xs ls current).1 (wrapLoop xs ls current).2 := by
  induction xs with
  | nil => intro ys ls current; rfl
  | cons w xs ih =>
    intro ys ls current
    simp only [List.cons_append, wrapLoop]
    split
    · split
      · exact ih ys ls _
      · exact ih ys _ w
    · split
      · exact ih ys ls _
      · exact ih ys _ w

theorem wrapLoop_lines_le (ws : List (List Char)) :
    ∀ ls current, (∀ w ∈ ws, w.length ≤ 22) → (∀ l ∈ ls, l.length ≤ 22) →
      current.length ≤ 22 →
      (∀ l ∈ (wrapLoop ws ls current).1, l.length ≤ 22) ∧
        (wrapLoop ws ls current).2.length ≤ 22 := by
  induction ws with
  | nil =>
    intro ls current _ hls hcur
    exact ⟨hls, hcur⟩
  | cons w ws ih =>
    intro ls current hws hls hcur
    have hlsext : ∀ l ∈ ls ++ [current], l.length ≤ 22 := by
      intro l hl
      rcases List.mem_append.mp hl with h | h
      · exact hls l h
      · simp only [List.mem_singleton] at h
        subst h
        exact hcur
    cases hemp : current.isEmpty with
    | true =>
      have hcurnil : current = [] := by
        cases current with
        | nil => rfl
        | cons a l => simp at hemp
      subst hcurnil
      have hw := hws w (by simp)
      simp only [wrapLoop, List.isEmpty_nil, if_true, List.length_nil,
        Nat.zero_add, Nat.add_zero, if_pos hw, List.nil_append]
      exact ih ls w (fun x hx => hws x (by simp [hx])) hls hw
    | false =>
      simp only [wrapLoop, hemp, Bool.false_eq_true, if_false]
      by_cases hfits : current.length + w.length + 1 ≤ 22
      · rw [if_pos hfits]
        refine ih ls _ (fun x hx => hws x (by simp [hx])) hls ?_
        simp only [List.length_append, List.length_cons, List.length_nil]
        omega
      · rw [if_neg hfits]
        exact ih (ls ++ [current]) w (fun x hx => hws x (by simp [hx])) hlsext
          (hws w (by simp))

theorem wrapWords_lines_le (ws : List (List Char))
    (h : ∀ w ∈ ws, w.length ≤ 22) : ∀ l ∈ wrapWords ws, l.length ≤ 22 := by
  obtain ⟨h1, h2⟩ := wrapLoop_lines_le ws [] [] h (by simp) (by simp)
  intro l hl
  unfold wrapWords at hl
  by_cases hemp : (wrapLoop ws [] []).2.isEmpty
  · rw [if_pos hemp] at hl
    exact h1 l hl
  · rw [if_neg hemp] at hl
    rcases List.mem_append.mp hl with h3 | h3
    · exact h1 l h3
    · simp only [List.mem_singleton] at h3
      subst h3
      exact h2

theorem floor_eq_intCast_div (sc ec : Int) (pos : Nat) :
    ⌊(sc : ℚ) + ((pos : ℚ) / 131) * ((ec : ℚ) - (sc : ℚ))⌋ =
      (131 * sc + (pos : Int) * (ec - sc)) / 131 := by
  have h1 : (sc : ℚ) + ((pos : ℚ) / 131) * ((ec : ℚ) - (sc : ℚ)) =
      ((131 * sc + (pos : Int) * (ec - sc) : Int) : ℚ) / ((131 : ℕ) : ℚ) := by
    push_cast
    ring
  rw [h1, Rat.floor_intCast_div_natCast]
  norm_num

theorem take_len_append {α : Type} (l₁ l₂ : List α) : (l₁ ++ l₂).take l₁.length = l₁ := by
  induction l₁ with
  | nil => rfl
  | cons a l ih => simp [ih]

theorem drop_len_append {α : Type} (l₁ l₂ : List α) : (l₁ ++ l₂).drop l₁.length = l₂ := by
  induction l₁ with
  | nil => rfl
  | cons a l ih => simp [ih]

theorem drop_len_add_append {α : Type} (l₁ l₂ : List α) (k : Nat) :
    (l₁ ++ l₂).drop (l₁.length + k) = l₂.drop k := by
  induction l₁ with
  | nil => simp
  | cons a l ih =>
    show (a :: (l ++ l₂)).drop (l.length + 1 + k) = l₂.drop k
    rw [show l.length + 1 + k = (l.length + k) + 1 from by omega]
    simp [ih]

theorem take_replicate_append {α : Type} (n : Nat) (x : α) (l : List α) :
    (List.replicate n x ++ l).take n = List.replicate n x := by
  simp

theorem drop_replicate_append {α : Type} (n : Nat) (x : α) (l : List α) :
    (List.replicate n x ++ l).drop n = l := by
  simp

theorem drop_replicate_add_append {α : Type} (n k : Nat) (x : α) (l : List α) :
    (List.replicate n x ++ l).drop (n + k) = l.drop k := by
  have h := drop_len_add_append (List.replicate n x) l k
  simpa using h

theorem take_map_some_append (codes : List Int) (l : List (Option Int)) :
    (codes.map some ++ l).take codes.length = codes.map some := by
  simp

theorem drop_map_some_append (codes : List Int) (l : List (Option Int)) :
    (codes.map some ++ l).drop codes.length = l := by
  simp

/-! Claim theorems. -/

/-- C1: the claim says an interior space lets the background show through
(cell (0,1) of the message `A B` on red should be the red fill 63). The code evaluates
otherwise: `convert_text_to_codes` encodes the space as the integer 0, which
is not the `None` transparency sentinel, so the overlay writes 0 over the
red background. The comments on lines 145 and 149 of `src/main.py`
("preserving background for spaces", "Only add non-space characters") state
the claimed behaviour, so the code contradicts its own documentation. -/
theorem c1_space_overwrites_background :
    (create_message_matrix tblAB ("A B") (some ("red")) Justify.left none).map
      (fun g => cellAt g 0 1) = some 0 ∧
    cellAt (background_matrix (some ("red")) none) 0 1 = 63 := by
  decide

/-- C2 (counterexample): composing a message that is a single 23-character
word raises IndexError in the overlay loop (modelled as `none`), so the
composer does not accept its whole input space. -/
theorem c2_counterexample :
    create_message_matrix tblAB (String.mk (List.replicate 23 'b')) (some ("red"))
      Justify.right none = none := by
  decide

/-- C3 (counterexample): for a 23-character word, the encoding step does not
truncate the wrapped line to its first 22 characters (the encoded line keeps
all 23 codes), and no output row exists at all: the overlay raises
IndexError (modelled as `none`). -/
theorem c3_counterexample :
    (convert_text_to_codes tblAB (List.replicate 23 'a')).length = 23 ∧
    create_message_matrix tblAB (String.mk (List.replicate 23 'a')) none
      Justify.left none = none := by
  decide

/-- C4 (counterexample): in the solid-fill path the unknown color name
"chartreuse" resolves to fill code 0, not the black code 70: the whole
returned grid is 0-filled. -/
theorem c4_counterexample :
    solid_fill_code (some ("chartreuse")) = 0 ∧
    create_message_matrix tblAB ("") (some ("chartreuse")) Justify.left none =
      some (List.replicate 6 (List.replicate 22 (0 : Int))) := by
  decide

/-- C6 (counterexample): an input with a 24-character word makes
`create_message_matrix` raise IndexError (modelled as `none`), so it does
not return a 6 × 22 grid on every input. -/
theorem c6_counterexample :
    create_message_matrix tblAB (String.mk (List.replicate 24 'a')) none
      Justify.center (some ("red", "black")) = none := by
  decide

/-- C4 (amended): a color name absent from COLOR_CODES resolves to the black
code 70 in the gradient path, but in the solid-fill path it resolves to 0,
the same fallback used when no color is set at all. -/
theorem c4_unknown_color_fallback (name : String)
    (h : COLOR_CODES (lowerString name) = none) (hne : name ≠ "") :
    gradient_color_code name = 70 ∧ solid_fill_code (some name) = 0 ∧
    solid_fill_code none = 0 := by
  refine ⟨?_, ?_, rfl⟩
  · unfold gradient_color_code
    rw [h]
    rfl
  · simp only [solid_fill_code]
    rw [if_neg hne, h]
    rfl

/-- Witness for C4 (amended) at the unknown color name `chartreuse`. -/
theorem c4_unknown_color_fallback_witness :
    gradient_color_code ("chartreuse") = 70 ∧
    solid_fill_code (some ("chartreuse")) = 0 ∧ solid_fill_code none = 0 :=
  c4_unknown_color_fallback ("chartreuse") (by decide) (by decide)

/-- C8: for a line of length at most 22 with center justification, the
justified row is 22 cells: floor((22 - len) / 2) transparent cells, then the
codes, then the remaining 22 - len - floor((22 - len) / 2) transparent cells
(odd remainder on the right). -/
theorem c8_center_padding (codes : List Int) (h : codes.length ≤ 22) :
    (justifyLine Justify.center codes).length = 22 ∧
    (justifyLine Justify.center codes).take ((22 - codes.length) / 2) =
      List.replicate ((22 - codes.length) / 2) none ∧
    ((justifyLine Justify.center codes).drop ((22 - codes.length) / 2)).take
      codes.length = codes.map some ∧
    (justifyLine Justify.center codes).drop
      ((22 - codes.length) / 2 + codes.length) =
      List.replicate (22 - codes.length - (22 - codes.length) / 2) none := by
  have hdiv : (22 - codes.length) / 2 ≤ 22 - codes.length := Nat.div_le_self _ _
  have e : justifyLine Justify.center codes =
      List.replicate ((22 - codes.length) / 2) (none : Option Int) ++
        (codes.map some ++
          List.replicate (22 - codes.length - (22 - codes.length) / 2) none) := by
    simp [justifyLine, List.append_assoc]
  refine ⟨?_, ?_, ?_, ?_⟩
  · rw [e]
    simp only [List.length_append, List.length_replicate, List.length_map]
    omega
  · rw [e, take_replicate_append]
  · rw [e, drop_replicate_append, take_map_some_append]
  · rw [e, drop_replicate_add_append, drop_map_some_append]

/-- Witness for C8 at the one-code line [5]: padding 10 on the left and 11
on the right, matching the 1-character example of the claim. -/
theorem c8_center_padding_witness :
    (justifyLine Justify.center [(5 : Int)]).length = 22 ∧
    (justifyLine Justify.center [(5 : Int)]).take 10 = List.replicate 10 none ∧
    ((justifyLine Justify.center [(5 : Int)]).drop 10).take 1 = [some (5 : Int)] ∧
    (justifyLine Justify.center [(5 : Int)]).drop 11 = List.replicate 11 none :=
  c8_center_padding [5] (by decide)

/-- C5: for known start and end colors, gradient cell (0,0) is exactly the
start code, cell (5,21) is exactly the end code, and every cell (r,c) is
floor(start + ((r*22+c)/131) * (end - start)), the floor (equivalently,
for these positive values, truncation) of the linear interpolation. -/
theorem c5_gradient_formula (s e : String) (sc ec : Int)
    (hs : COLOR_CODES (lowerString s) = some sc)
    (he : COLOR_CODES (lowerString e) = some ec) :
    cellAt (create_gradient_background s e) 0 0 = sc ∧
    cellAt (create_gradient_background s e) 5 21 = ec ∧
    ∀ r c : Nat, r < 6 → c < 22 →
      cellAt (create_gradient_background s e) r c =
        ⌊(sc : ℚ) + (((r * 22 + c : Nat) : ℚ) / 131) * ((ec : ℚ) - (sc : ℚ))⌋ := by
  have hsc : gradient_color_code s = sc := by
    unfold gradient_color_code
    rw [hs]
    rfl
  have hec : gradient_color_code e = ec := by
    unfold gradient_color_code
    rw [he]
    rfl
  have hcell : ∀ r c : Nat, r < 6 → c < 22 →
      cellAt (create_gradient_background s e) r c =
        (131 * sc + ((r * 22 + c : Nat) : Int) * (ec - sc)) / 131 := by
    intro r c hr hc
    rw [create_gradient_background_cell s e r c hr hc, hsc, hec]
  refine ⟨?_, ?_, ?_⟩
  · rw [hcell 0 0 (by norm_num) (by norm_num)]
    have h0 : 131 * sc + ((0 * 22 + 0 : Nat) : Int) * (ec - sc) = 131 * sc := by
      push_cast
      ring
    rw [h0]
    exact Int.mul_ediv_cancel_left sc (by norm_num)
  · rw [hcell 5 21 (by norm_num) (by norm_num)]
    have h1 : 131 * sc + ((5 * 22 + 21 : Nat) : Int) * (ec - sc) = 131 * ec := by
      push_cast
      ring
    rw [h1]
    exact Int.mul_ediv_cancel_left ec (by norm_num)
  · intro r c hr hc
    rw [hcell r c hr hc, floor_eq_intCast_div]

/-- Witness for C5 with the red-to-black gradient from the spec table. -/
theorem c5_gradient_formula_witness :
    cellAt (create_gradient_background ("red") ("black")) 0 0 = 63 ∧
    cellAt (create_gradient_background ("red") ("black")) 5 21 = 70 :=
  ⟨(c5_gradient_formula ("red") ("black") 63 70 (by decide) (by decide)).1,
   (c5_gradient_formula ("red") ("black") 63 70 (by decide) (by decide)).2.1⟩

/-- C9: when the end code exceeds the start code, gradient cells are
monotonically non-decreasing along reading order (row-major position). -/
theorem c9_gradient_monotone (s e : String)
    (h : gradient_color_code s < gradient_color_code e)
    (r1 c1 r2 c2 : Nat) (hr1 : r1 < 6) (hc1 : c1 < 22) (hr2 : r2 < 6)
    (hc2 : c2 < 22) (hpos : r1 * 22 + c1 ≤ r2 * 22 + c2) :
    cellAt (create_gradient_background s e) r1 c1 ≤
      cellAt (create_gradient_background s e) r2 c2 := by
  rw [create_gradient_background_cell s e r1 c1 hr1 hc1,
    create_gradient_background_cell s e r2 c2 hr2 hc2]
  apply Int.ediv_le_ediv (by norm_num)
  have hcast : ((r1 * 22 + c1 : Nat) : Int) ≤ ((r2 * 22 + c2 : Nat) : Int) := by
    exact_mod_cast hpos
  have hd : (0 : Int) ≤ gradient_color_code e - gradient_color_code s := by omega
  have hmul := mul_le_mul_of_nonneg_right hcast hd
  omega

/-- Witness for C9 with the red-to-black gradient at adjacent cells. -/
theorem c9_gradient_monotone_witness :
    cellAt (create_gradient_background ("red") ("black")) 0 0 ≤
      cellAt (create_gradient_background ("red") ("black")) 0 1 :=
  c9_gradient_monotone ("red") ("black") (by decide) 0 0 0 1 (by decide) (by decide)
    (by decide) (by decide) (by decide)

/-- C10: an empty or all-whitespace message wraps to no lines, so the
composer returns the generated background grid unchanged, for every
justification and color or gradient choice. -/
theorem c10_whitespace_preserves_background (tbl : Char → Option Int)
    (message : String) (color : Option String) (justify : Justify)
    (gradient : Option (String × String))
    (h : ∀ c ∈ message.toList, isSpaceChar c = true) :
    create_message_matrix tbl message color justify gradient =
      some (background_matrix color gradient) := by
  unfold create_message_matrix
  rw [splitWords_nil_of_space _ h]
  have hnil : justified_lines tbl justify (wrapWords []) = [] := rfl
  rw [hnil]
  have hlen := background_matrix_length color gradient
  cases justify with
  | center =>
    have hvc : vertical_center Justify.center ([] : List (List (Option Int))) =
        List.replicate 6 (List.replicate 22 none) := rfl
    rw [hvc]
    refine overlay_all_none _ _ ?_ ?_
    · rw [hlen]
      simp
    · intro l hl x hx
      rw [List.eq_of_mem_replicate hl] at hx
      exact List.eq_of_mem_replicate hx
  | left => exact overlay_all_none [] _ (by simp) (by simp)
  | right => exact overlay_all_none [] _ (by simp) (by simp)

/-- Witness for C10: two spaces, centered, on the red-to-black gradient. -/
theorem c10_whitespace_preserves_background_witness :
    create_message_matrix tblAB ("  ") none Justify.center (some ("red", "black")) =
      some (background_matrix none (some ("red", "black"))) :=
  c10_whitespace_preserves_background tblAB ("  ") none Justify.center
    (some ("red", "black")) (by decide)

theorem vertical_center_facts (j : Justify) (rows : List (List (Option Int)))
    (hc : rows.length ≤ 6) (hr : ∀ r ∈ rows, r.length ≤ 22) :
    (vertical_center j rows).length ≤ 6 ∧
      ∀ r ∈ vertical_center j rows, r.length ≤ 22 := by
  cases j with
  | center =>
    have hdiv : (6 - rows.length) / 2 ≤ 6 - rows.length := Nat.div_le_self _ _
    constructor
    · simp only [vertical_center, List.length_append, List.length_replicate]
      omega
    · intro r hrm
      simp only [vertical_center] at hrm
      rcases List.mem_append.mp hrm with h1 | h1
      · rcases List.mem_append.mp h1 with h2 | h2
        · rw [List.eq_of_mem_replicate h2]
          simp
        · exact hr r h2
      · rw [List.eq_of_mem_replicate h1]
        simp
  | left => exact ⟨hc, hr⟩
  | right => exact ⟨hc, hr⟩

/-- C2 (amended): the composer never fails provided every whitespace-split
word of the message is at most 22 characters long; it is not total, since
on some inputs, such as the lone 23-character word of the counterexample,
an over-long word reaches the overlay and raises IndexError. Fitting words
is sufficient but not necessary: an over-long word wrapped beyond the sixth
line is dropped by the take-six cut and the call still returns, see
`overlong_word_beyond_sixth_line_returns`. -/
theorem c2_no_error_if_words_fit (tbl : Char → Option Int) (message : String)
    (color : Option String) (justify : Justify)
    (gradient : Option (String × String))
    (h : ∀ w ∈ splitWords message.toList, w.length ≤ 22) :
    (create_message_matrix tbl message color justify gradient).isSome = true := by
  unfold create_message_matrix
  have hlines : ∀ l ∈ wrapWords (splitWords message.toList), l.length ≤ 22 :=
    wrapWords_lines_le _ h
  have hjl : ∀ r ∈ justified_lines tbl justify (wrapWords (splitWords message.toList)),
      r.length ≤ 22 := by
    intro r hr
    simp only [justified_lines, List.mem_map] at hr
    obtain ⟨line, hline, rfl⟩ := hr
    have hline22 : line.length ≤ 22 := hlines line (List.take_subset 6 _ hline)
    have hconv : (convert_text_to_codes tbl line).length = line.length := by
      simp [convert_text_to_codes]
    exact le_of_eq (justifyLine_length justify _ (by rw [hconv]; exact hline22))
  have hjlen : (justified_lines tbl justify
      (wrapWords (splitWords message.toList))).length ≤ 6 := by
    simp only [justified_lines, List.length_map, List.length_take]
    omega
  obtain ⟨hvl, hvr⟩ := vertical_center_facts justify _ hjlen hjl
  obtain ⟨g, hg⟩ := overlay_some_of_fits _ _
    (by rw [background_matrix_length]; exact hvl) hvr
    (background_matrix_rows color gradient)
  rw [hg]
  rfl

/-- Boundary fact supporting the C2 and C6 amendments: fitting words is a
sufficient condition for a normal return, not a necessary one. Here six
22-character words fill the six lines and a trailing 23-character word wraps
onto a seventh line, which the take-six cut silently drops, so the call
returns a grid even though the message contains an over-long word. -/
theorem overlong_word_beyond_sixth_line_returns :
    (create_message_matrix tblAB
      (String.mk (List.intercalate [' ']
        (List.replicate 6 (List.replicate 22 'a') ++ [List.replicate 23 'a'])))
      none Justify.left none).isSome = true := by
  decide

/-- Witness for C2 (amended) on a two-word message that fits. -/
theorem c2_no_error_if_words_fit_witness :
    (create_message_matrix tblAB ("hello world") (some ("blue")) Justify.center
      none).isSome = true :=
  c2_no_error_if_words_fit tblAB ("hello world") (some ("blue")) Justify.center none
    (by decide)

/-- C6 (amended): whenever `create_message_matrix` does return a grid, the
grid has exactly 6 rows of exactly 22 integer cells; it does not return a
grid on every input (see the counterexample, where a lone 24-character word
raises IndexError). -/
theorem c6_dims_when_returned (tbl : Char → Option Int) (message : String)
    (color : Option String) (justify : Justify)
    (gradient : Option (String × String)) (g : List (List Int))
    (h : create_message_matrix tbl message color justify gradient = some g) :
    g.map List.length = List.replicate 6 22 := by
  unfold create_message_matrix at h
  rw [overlay_map_length _ _ _ h]
  apply List.eq_replicate_iff.mpr
  constructor
  · simp [background_matrix_length]
  · intro b hb
    simp only [List.mem_map] at hb
    obtain ⟨row, hrow, rfl⟩ := hb
    exact background_matrix_rows color gradient row hrow

/-- Witness for C6 (amended) on the empty message with no color. -/
theorem c6_dims_when_returned_witness :
    (List.replicate 6 (List.replicate 22 (0 : Int))).map List.length =
      List.replicate 6 22 :=
  c6_dims_when_returned tblAB ("") none Justify.left none
    (List.replicate 6 (List.replicate 22 0)) (by decide)

/-- C7: a word list that joins with single separating spaces to exactly 22
characters wraps onto one single line, and appending one further
one-character word pushes that word, and only it, onto a second line. -/
theorem c7_wrap_boundary (ws : List (List Char)) (ch : Char) (hne : ws ≠ [])
    (hw : ∀ w ∈ ws, w ≠ []) (hlen : (sepJoin ws).length = 22) :
    wrapWords ws = [sepJoin ws] ∧
    wrapWords (ws ++ [[ch]]) = [sepJoin ws, [ch]] := by
  cases ws with
  | nil => exact absurd rfl hne
  | cons w rest =>
    have hw0 : w ≠ [] := hw w (by simp)
    have hlen2 : w.length + (sepTail rest).length = 22 := by
      simpa [sepJoin] using hlen
    have hwle : w.length ≤ 22 := by omega
    have hstep : ∀ ys, wrapLoop (w :: ys) [] [] = wrapLoop ys [] w := by
      intro ys
      simp [wrapLoop, hwle]
    have hloop : wrapLoop rest [] w = ([], w ++ sepTail rest) :=
      wrapLoop_full_fit rest w [] hw0 (by omega)
    have hLne : (w ++ sepTail rest).isEmpty = false := by
      cases w with
      | nil => exact absurd rfl hw0
      | cons a l => rfl
    have hsep : sepJoin (w :: rest) = w ++ sepTail rest := rfl
    constructor
    · unfold wrapWords
      rw [hstep rest, hloop, hsep]
      simp [hLne]
    · unfold wrapWords
      have hassoc : (w :: rest) ++ [[ch]] = w :: (rest ++ [[ch]]) := rfl
      rw [hassoc, hstep (rest ++ [[ch]]), wrapLoop_append, hloop]
      have hLlen : (w ++ sepTail rest).length = 22 := by
        simp only [List.length_append]
        omega
      have hcond : ¬ ((w ++ sepTail rest).length + ([ch] : List Char).length +
          (if (w ++ sepTail rest).isEmpty then 0 else 1) ≤ 22) := by
        rw [hLne]
        simp only [List.length_append, List.length_cons, List.length_nil,
          Bool.false_eq_true, if_false]
        omega
      simp only [wrapLoop]
      rw [if_neg hcond]
      simp [wrapLoop, hsep]

/-- Witness for C7: one 22-character word, then an appended 1-character
word. -/
theorem c7_wrap_boundary_witness :
    wrapWords [List.replicate 22 'a'] = [sepJoin [List.replicate 22 'a']] ∧
    wrapWords ([List.replicate 22 'a'] ++ [['b']]) =
      [sepJoin [List.replicate 22 'a'], ['b']] :=
  c7_wrap_boundary [List.replicate 22 'a'] 'b' (by decide) (by decide) (by decide)

/-- C3 (amended): a single word longer than 22 characters does occupy its
own wrapped line (preceded by an empty line, since the loop closes the empty
current line first), but the encoding step does not truncate it to 22
characters: the encoded line keeps one code per character, and the overlay
then raises IndexError (modelled as `none`), so no output row is produced. -/
theorem c3_overlong_word_error (tbl : Char → Option Int) (n : Nat) (h : 22 < n) :
    wrapWords [List.replicate n 'a'] = [[], List.replicate n 'a'] ∧
    (convert_text_to_codes tbl (List.replicate n 'a')).length = n ∧
    create_message_matrix tbl (String.mk (List.replicate n 'a')) none Justify.left
      none = none := by
  have hword : List.replicate n 'a' ≠ [] := by
    intro hcon
    have hlen := congrArg List.length hcon
    simp at hlen
    omega
  have hne : (List.replicate n 'a').isEmpty = false := by
    cases hn : n with
    | zero => omega
    | succ m => simp [List.replicate_succ]
  have hwrap : wrapWords [List.replicate n 'a'] = [[], List.replicate n 'a'] := by
    unfold wrapWords
    simp only [wrapLoop]
    have hcond : ¬ (([] : List Char).length + (List.replicate n 'a').length +
        (if ([] : List Char).isEmpty then 0 else 1) ≤ 22) := by
      simp only [List.length_nil, List.length_replicate, List.isEmpty_nil, if_true]
      omega
    rw [if_neg hcond]
    simp [wrapLoop, hne]
  have hcodes : (convert_text_to_codes tbl (List.replicate n 'a')).length = n := by
    simp [convert_text_to_codes]
  refine ⟨hwrap, hcodes, ?_⟩
  have hsplit : splitWords (String.mk (List.replicate n 'a')).toList =
      [List.replicate n 'a'] := by
    have h1 : (String.mk (List.replicate n 'a')).toList = List.replicate n 'a' := rfl
    rw [h1]
    refine splitWords_single _ hword ?_
    intro c hc
    rw [List.eq_of_mem_replicate hc]
    rfl
  unfold create_message_matrix
  rw [hsplit, hwrap]
  have hvc : vertical_center Justify.left
      (justified_lines tbl Justify.left [[], List.replicate n 'a']) =
      justified_lines tbl Justify.left [[], List.replicate n 'a'] := rfl
  rw [hvc]
  have hjl : justified_lines tbl Justify.left [[], List.replicate n 'a'] =
      [List.replicate 22 none,
        (convert_text_to_codes tbl (List.replicate n 'a')).map some] := by
    unfold justified_lines
    rw [List.take_of_length_le (by simp)]
    simp only [List.map_cons, List.map_nil]
    have hA : justifyLine Justify.left (convert_text_to_codes tbl []) =
        List.replicate 22 none := by
      simp [justifyLine, convert_text_to_codes]
    have hB : justifyLine Justify.left
        (convert_text_to_codes tbl (List.replicate n 'a')) =
        (convert_text_to_codes tbl (List.replicate n 'a')).map some := by
      simp only [justifyLine]
      rw [hcodes, Nat.sub_eq_zero_of_le (by omega : 22 ≤ n)]
      simp
    rw [hA, hB]
  rw [hjl]
  have hbg : background_matrix none none =
      (List.replicate 22 (0 : Int)) :: (List.replicate 22 (0 : Int)) ::
        List.replicate 4 (List.replicate 22 (0 : Int)) := rfl
  rw [hbg]
  have hcodesne : convert_text_to_codes tbl (List.replicate n 'a') ≠ [] := by
    intro hcon
    have hl := hcodes
    rw [hcon] at hl
    simp at hl
    omega
  have hrow1 : overlayRowAux (List.replicate 22 (0 : Int))
      (List.replicate 22 none) 0 = some (List.replicate 22 0) :=
    overlayRowAux_all_none _ _ _ (fun x hx => List.eq_of_mem_replicate hx)
  have hrow2 : overlayRowAux (List.replicate 22 (0 : Int))
      ((convert_text_to_codes tbl (List.replicate n 'a')).map some) 0 = none := by
    refine overlayRowAux_none_of_gt _ _ _ hcodesne ?_
    rw [hcodes]
    simp only [List.length_replicate]
    omega
  simp only [overlay, hrow1, hrow2]

/-- Witness for C3 (amended) at a 23-character word. -/
theorem c3_overlong_word_error_witness :
    wrapWords [List.replicate 23 'a'] = [[], List.replicate 23 'a'] ∧
    (convert_text_to_codes tblAB (List.replicate 23 'a')).length = 23 ∧
    create_message_matrix tblAB (String.mk (List.replicate 23 'a')) none
      Justify.left none = none :=
  c3_overlong_word_error tblAB 23 (by decide)

end Vestaboard
